import Mathlib

/-!
Shallow embedding of the calendar core of `src/calander.py`:

* the lane packer `_compute_lanes` (lines 407-439), which lays out one
  day's timed events into non-overlapping display columns, and
* the re-plan coordinator `_check_and_replan` (lines 1279-1352) together
  with the admissibility guard inside `refresh_events` (lines 229-247).

Instants are modelled as integers (the Python code compares parsed
`datetime` values and second differences; only the order and the
differences matter for the properties proved here).
-/

/-- An event as seen by `_compute_lanes`: `startTime`/`endTime` are the
parsed `start.dateTime` / `end.dateTime` instants, `none` when the field
is missing or `datetime.fromisoformat` raises. -/
structure RawEvent where
  eid : Nat
  startTime : Option Int
  endTime : Option Int
deriving DecidableEq, Inhabited

/-- A filtered event together with its parsed instants: the tuple
`(ev, parse(s), parse(e))` the Python code appends to `items`. -/
structure Item where
  ev : RawEvent
  s : Int
  e : Int
deriving DecidableEq, Inhabited

/-- The filtering loop of `_compute_lanes`: events missing a start or
end `dateTime`, or whose timestamps fail to parse, are skipped. -/
def parseItems : List RawEvent → List Item
  | [] => []
  | ev :: rest =>
    match ev.startTime, ev.endTime with
    | some a, some b => { ev := ev, s := a, e := b } :: parseItems rest
    | _, _ => parseItems rest

/-- Stable insertion of an item into a list sorted by start instant: the
new item goes after every element with a strictly smaller start and
before every element with an equal or larger start. -/
def insertSorted (x : Item) : List Item → List Item
  | [] => [x]
  | y :: ys => if y.s < x.s then y :: insertSorted x ys else x :: y :: ys

/-- `items.sort(key=lambda x: x[1])`: Python's sort is stable and orders
by start instant ascending; this insertion sort computes the same list. -/
def sortByStart : List Item → List Item
  | [] => []
  | x :: xs => insertSorted x (sortByStart xs)

/-- One iteration of the placement loop: scan `lanes` in index order and
give the event the first lane whose recorded end time is `<= s`
(the Python test `s >= lanes[i]`), updating that lane's end to `e`;
if none qualifies, open a new lane at the next index. Returns the
updated lane list and the chosen lane index. -/
def assignLane : List Int → Item → List Int × Nat
  | [], x => ([x.e], 0)
  | l :: ls, x =>
    if l ≤ x.s then (x.e :: ls, 0)
    else
      let r := assignLane ls x
      (l :: r.1, r.2 + 1)

/-- The main loop of `_compute_lanes` over the sorted items, carrying the
open-lane end times and the layout accumulated so far. -/
def packSteps : List Int → List (Item × Nat) → List Item → List Int × List (Item × Nat)
  | lanes, layout, [] => (lanes, layout)
  | lanes, layout, x :: rest =>
    let r := assignLane lanes x
    packSteps r.1 (layout ++ [(x, r.2)]) rest

/-- Run the placement loop from the empty lane list. -/
def packAll (items : List Item) : List Int × List (Item × Nat) :=
  packSteps [] [] items

/-- The layout (item, lane index) produced by `_compute_lanes` for a
given input event sequence. -/
def layoutOf (events : List RawEvent) : List (Item × Nat) :=
  (packAll (sortByStart (parseItems events))).2

/-- `lane_count = len(lanes)` after the loop. -/
def laneCountOf (events : List RawEvent) : Nat :=
  (packAll (sortByStart (parseItems events))).1.length

/-- The return value of `_compute_lanes`:
`[(ev, lane, lane_count) for (ev, lane, _) in layout]`. -/
def computeLanes (events : List RawEvent) : List (RawEvent × Nat × Nat) :=
  (layoutOf events).map fun q => (q.1.ev, q.2, laneCountOf events)

/-- Sweep-line reference: an item is active at instant `t` when
`s ≤ t < e` (half-open interval, so back-to-back events never share an
instant). -/
def activeAt (t : Int) (x : Item) : Bool :=
  decide (x.s ≤ t) && decide (t < x.e)

/-- Number of items simultaneously active at instant `t`. -/
def depthAt (items : List Item) (t : Int) : Nat :=
  items.countP (activeAt t)

/-- The overlap depth of an item set: the maximum, over all start
instants (where the maximum is attained), of the number of items active
at that instant. -/
def overlapDepth (items : List Item) : Nat :=
  (items.map fun x => depthAt items x.s).foldr max 0

/-- Two intervals do not overlap: `a.end <= b.start or b.end <= a.start`. -/
def noOverlapPair (a b : Item) : Prop := a.e ≤ b.s ∨ b.e ≤ a.s

/-- Relation between layout entries in emission order: if they share a
lane, the earlier entry ends no later than the later one starts. -/
def sameLaneSep (p q : Item × Nat) : Prop := p.2 = q.2 → p.1.e ≤ q.1.s

/-!
Re-plan coordinator (`_check_and_replan`, `refresh_events`).

State fields mirror the attributes set up at startup:
`self._is_replanning = False`, `self._last_replan_time = None`,
`self._replan_cooldown = 5`.  The rejection outcomes name the early
`return` paths of `_check_and_replan` in source order.
-/

/-- An event as seen by the coordinator: only its `summary` is read
(`ev.get("summary", "").startswith("[Task]")`). -/
structure CalEvent where
  summary : String
deriving DecidableEq, Inhabited

/-- A scheduler task: `t.scheduled_start` is truthy exactly when a start
instant is present. -/
structure SchedTask where
  scheduledStart : Option Int
deriving DecidableEq, Inhabited

/-- A capacity warning produced by `analyze_capacity`. -/
structure Warning where
  severity : String
deriving DecidableEq, Inhabited

/-- `str.startswith(pat)` on character lists: the second argument is a
leading pattern of the first. -/
def strStarts : List Char → List Char → Bool
  | _, [] => true
  | [], _ :: _ => false
  | c :: cs, d :: ds => c == d && strStarts cs ds

/-- `any(ev.get("summary", "").startswith("[Task]") for ev in events)`. -/
def hasTaskEvents (events : List CalEvent) : Bool :=
  events.any fun ev => strStarts ev.summary.data "[Task]".data

/-- `any(t.scheduled_start for t in self.scheduler.tasks)`. -/
def hasScheduledTasks (tasks : List SchedTask) : Bool :=
  tasks.any fun t => t.scheduledStart.isSome

/-- `critical = [w for w in warnings if w.severity == "critical"]`
followed by Python truthiness of the list. -/
def hasCritical (ws : List Warning) : Bool :=
  ws.any fun w => w.severity == "critical"

/-- Coordinator state: the `_is_replanning` flag and the
`_last_replan_time` timestamp (`None` until the first dispatch). -/
structure CoordState where
  isReplanning : Bool
  lastReplanTime : Option Int
deriving DecidableEq, Inhabited

/-- The coordinator state at startup. -/
def initialCoordState : CoordState := { isReplanning := false, lastReplanTime := none }

/-- `self._replan_cooldown = 5` (minimum seconds between replans). -/
def replanCooldown : Int := 5

/-- Everything one `_check_and_replan` call reads besides the coordinator
state: the current clock, `self.events`, `self.scheduler.tasks` and the
warnings `analyze_capacity(days=3)` would return. -/
structure TriggerInput where
  now : Int
  events : List CalEvent
  tasks : List SchedTask
  warnings : List Warning
deriving DecidableEq, Inhabited

/-- The cooldown test: `self._last_replan_time` is truthy and
`(now - self._last_replan_time).total_seconds() < self._replan_cooldown`. -/
def inCooldown (st : CoordState) (now : Int) : Bool :=
  match st.lastReplanTime with
  | some t => decide (now - t < replanCooldown)
  | none => false

/-- Outcome of one `_check_and_replan` call, naming its `return` paths in
source order; `accepted` is the branch that dispatches the worker. -/
inductive ReplanOutcome where
  | alreadyRunning
  | cooldown
  | nothingToReplan
  | notQualifying
  | accepted
deriving DecidableEq, Inhabited

/-- The decision logic of `_check_and_replan` (lines 1279-1318), up to
and including the state mutation performed when a re-plan is dispatched:
`self._is_replanning = True; self._last_replan_time = now`. -/
def checkAndReplan (st : CoordState) (inp : TriggerInput) : CoordState × ReplanOutcome :=
  if st.isReplanning then (st, .alreadyRunning)
  else if inCooldown st inp.now then (st, .cooldown)
  else if !hasTaskEvents inp.events && !hasScheduledTasks inp.tasks then
    (st, .nothingToReplan)
  else if hasCritical inp.warnings || (hasTaskEvents inp.events && !st.isReplanning) then
    ({ isReplanning := true, lastReplanTime := some inp.now }, .accepted)
  else (st, .notQualifying)

/-- How the worker `replan_async` can finish: `auto_replan` returns
success / `no_tasks` / a failure status, or raises (the exception is
caught inside the worker). -/
inductive WorkerResult where
  | success (calendarTasks schedulerTasks : Nat)
  | noTasks
  | failureStatus (message : String)
  | raised (message : String)
deriving DecidableEq, Inhabited

/-- The state update performed when the worker finishes at instant `now`
with result `r`: every path schedules `self._is_replanning = False`
(line 1327 for returned statuses, line 1346 when the worker raised);
no path touches `_last_replan_time`. -/
def onWorkerComplete (st : CoordState) (_now : Int) (_r : WorkerResult) : CoordState :=
  { st with isReplanning := false }

/-- Which refresh, if any, the completion callback triggers, and the
`skip_replan` flag it passes: only the success branch schedules
`self.refresh_events(skip_replan=True)` (line 1339). -/
def completionTriggersRefresh (r : WorkerResult) : Option Bool :=
  match r with
  | .success _ _ => some true
  | _ => none

/-- The guard in `refresh_events` (line 244) deciding whether
`_check_and_replan` is evaluated at all:
`self.optimizer.replan_on_event_change and not skip_replan and not self._is_replanning`. -/
def refreshRunsReplanCheck (replanOnEventChange skipReplan isReplanning : Bool) : Bool :=
  replanOnEventChange && !skipReplan && !isReplanning

/-- A sequence of `_check_and_replan` calls with no worker completion in
between, returning the final state and the outcome of each call. -/
def runTriggers (st : CoordState) : List TriggerInput → CoordState × List ReplanOutcome
  | [] => (st, [])
  | inp :: rest =>
    let r := checkAndReplan st inp
    let t := runTriggers r.1 rest
    (t.1, r.2 :: t.2)

/-- Loop invariant of the placement loop, over the processed items
`done`, the open-lane end times `lanes` and the accumulated `layout`:
the layout lists exactly the processed items in order; every assigned
lane index is in range; entries sharing a lane are separated in emission
order; every entry's end is bounded by its lane's current end time or by
the start of a later entry on the same lane; and every lane's recorded
end time is the end of some entry assigned to it. -/
structure PackInv (done : List Item) (lanes : List Int) (layout : List (Item × Nat)) : Prop where
  map_fst : layout.map Prod.fst = done
  lane_lt : ∀ q ∈ layout, q.2 < lanes.length
  sep : layout.Pairwise sameLaneSep
  end_bound : ∀ q ∈ layout,
    q.1.e ≤ lanes.getD q.2 0 ∨ ∃ r ∈ layout, r.2 = q.2 ∧ q.1.e ≤ r.1.s
  lane_src : ∀ j, j < lanes.length → ∃ q ∈ layout, q.2 = j ∧ q.1.e = lanes.getD j 0

/-- The spec's concrete lane-packing scenario: A(09:00-10:00),
B(09:30-10:30), C(10:00-11:00), instants in minutes of the day. -/
def evA : RawEvent := { eid := 0, startTime := some 540, endTime := some 600 }

/-- Event B(09:30-10:30) of the concrete scenario. -/
def evB : RawEvent := { eid := 1, startTime := some 570, endTime := some 630 }

/-- Event C(10:00-11:00) of the concrete scenario. -/
def evC : RawEvent := { eid := 2, startTime := some 600, endTime := some 660 }

/-- The one-day event set of the concrete scenario. -/
def abcEvents : List RawEvent := [evA, evB, evC]

/-- A qualifying trigger at instant `n`: no tagged events, one scheduled
task, one critical capacity warning. -/
def qualifyingInput (n : Int) : TriggerInput :=
  { now := n
    events := []
    tasks := [{ scheduledStart := some 0 }]
    warnings := [{ severity := "critical" }] }

/-! Helper lemmas about list indexing, maxima and the stable sort. -/

theorem getD_set_self (l : List Int) (i : Nat) (a : Int) (h : i < l.length) :
    (l.set i a).getD i 0 = a := by
  induction l generalizing i with
  | nil => simp at h
  | cons b t ih =>
    cases i with
    | zero => rfl
    | succ j => simpa using ih j (by simpa using h)

theorem getD_set_ne (l : List Int) (i j : Nat) (a : Int) (h : i ≠ j) :
    (l.set i a).getD j 0 = l.getD j 0 := by
  induction l generalizing i j with
  | nil => rfl
  | cons b t ih =>
    cases i with
    | zero =>
      cases j with
      | zero => exact absurd rfl h
      | succ j' => rfl
    | succ i' =>
      cases j with
      | zero => rfl
      | succ j' => simpa using ih i' j' (by omega)

theorem getD_append_lt (l₁ l₂ : List Int) (i : Nat) (h : i < l₁.length) :
    (l₁ ++ l₂).getD i 0 = l₁.getD i 0 := by
  induction l₁ generalizing i with
  | nil => simp at h
  | cons b t ih =>
    cases i with
    | zero => rfl
    | succ j => simpa using ih j (by simpa using h)

theorem getD_append_len (l : List Int) (a : Int) :
    (l ++ [a]).getD l.length 0 = a := by
  induction l with
  | nil => rfl
  | cons b t ih => simp [ih]

theorem le_foldr_max (L : List Nat) (a : Nat) (h : a ∈ L) : a ≤ L.foldr max 0 := by
  induction L with
  | nil => simp at h
  | cons b t ih =>
    rcases List.mem_cons.mp h with rfl | h'
    · exact le_max_left _ _
    · exact le_trans (ih h') (le_max_right _ _)

theorem foldr_max_le (L : List Nat) (k : Nat) (h : ∀ a ∈ L, a ≤ k) :
    L.foldr max 0 ≤ k := by
  induction L with
  | nil => simp
  | cons b t ih =>
    exact max_le (h b (List.mem_cons_self b t)) (ih fun a ha => h a (List.mem_cons_of_mem b ha))

theorem foldr_max_perm (L₁ L₂ : List Nat) (h : L₁.Perm L₂) :
    L₁.foldr max 0 = L₂.foldr max 0 := by
  apply le_antisymm
  · exact foldr_max_le _ _ fun a ha => le_foldr_max _ _ (h.mem_iff.mp ha)
  · exact foldr_max_le _ _ fun a ha => le_foldr_max _ _ (h.mem_iff.mpr ha)

theorem insertSorted_perm (x : Item) (l : List Item) :
    (insertSorted x l).Perm (x :: l) := by
  induction l with
  | nil => simp [insertSorted]
  | cons y ys ih =>
    by_cases h : y.s < x.s
    · simp only [insertSorted, if_pos h]
      exact (ih.cons y).trans (List.Perm.swap x y ys)
    · simp [insertSorted, if_neg h]

theorem sortByStart_perm (l : List Item) : (sortByStart l).Perm l := by
  induction l with
  | nil => simp [sortByStart]
  | cons x xs ih =>
    exact (insertSorted_perm x (sortByStart xs)).trans (ih.cons x)

theorem mem_insertSorted {z x : Item} {l : List Item} :
    z ∈ insertSorted x l ↔ z = x ∨ z ∈ l := by
  rw [(insertSorted_perm x l).mem_iff]
  simp

theorem insertSorted_sorted (x : Item) (l : List Item)
    (h : l.Pairwise fun a b => a.s ≤ b.s) :
    (insertSorted x l).Pairwise fun a b => a.s ≤ b.s := by
  induction l with
  | nil => simp [insertSorted]
  | cons y ys ih =>
    rcases List.pairwise_cons.mp h with ⟨hy, hys⟩
    by_cases hlt : y.s < x.s
    · simp only [insertSorted, if_pos hlt]
      refine List.pairwise_cons.mpr ⟨?_, ih hys⟩
      intro z hz
      rcases mem_insertSorted.mp hz with rfl | hz'
      · exact le_of_lt hlt
      · exact hy z hz'
    · simp only [insertSorted, if_neg hlt]
      refine List.pairwise_cons.mpr ⟨?_, h⟩
      intro z hz
      rcases List.mem_cons.mp hz with rfl | hz'
      · exact le_of_not_lt hlt
      · exact le_trans (le_of_not_lt hlt) (hy z hz')

theorem sortByStart_sorted (l : List Item) :
    (sortByStart l).Pairwise fun a b => a.s ≤ b.s := by
  induction l with
  | nil => simp [sortByStart]
  | cons x xs ih => exact insertSorted_sorted x (sortByStart xs) ih

theorem sortByStart_eq_of_sorted (l : List Item)
    (h : l.Pairwise fun a b => a.s ≤ b.s) : sortByStart l = l := by
  induction l with
  | nil => rfl
  | cons x xs ih =>
    rcases List.pairwise_cons.mp h with ⟨hx, hxs⟩
    rw [sortByStart, ih hxs]
    cases xs with
    | nil => rfl
    | cons y ys =>
      have : ¬ y.s < x.s := not_lt.mpr (hx y (List.mem_cons_self _ _))
      simp [insertSorted, this]

theorem sortByStart_idem (l : List Item) :
    sortByStart (sortByStart l) = sortByStart l :=
  sortByStart_eq_of_sorted _ (sortByStart_sorted l)

theorem insertSorted_filter_key (x : Item) (l : List Item) (k : Int)
    (h : l.Pairwise fun a b => a.s ≤ b.s) :
    (insertSorted x l).filter (fun z => z.s == k)
      = if x.s == k then x :: l.filter (fun z => z.s == k)
        else l.filter (fun z => z.s == k) := by
  induction l with
  | nil =>
    cases hxk : (x.s == k) <;> simp [insertSorted, List.filter, hxk]
  | cons y ys ih =>
    rcases List.pairwise_cons.mp h with ⟨hy, hys⟩
    by_cases hlt : y.s < x.s
    · simp only [insertSorted, if_pos hlt]
      by_cases hxk : x.s == k
      · have hxk' : x.s = k := by simpa using hxk
        have hyk : (y.s == k) = false := by
          simp only [beq_eq_false_iff_ne]
          omega
        simp [List.filter_cons, hyk, ih hys, hxk]
      · simp [List.filter_cons, ih hys, hxk]
    · simp [insertSorted, if_neg hlt, List.filter_cons]

theorem sortByStart_filter_key (l : List Item) (k : Int) :
    (sortByStart l).filter (fun z => z.s == k) = l.filter (fun z => z.s == k) := by
  induction l with
  | nil => rfl
  | cons x xs ih =>
    rw [sortByStart, insertSorted_filter_key x (sortByStart xs) k (sortByStart_sorted xs), ih]
    by_cases hxk : x.s == k
    · simp [List.filter_cons, hxk]
    · simp [List.filter_cons, hxk]

/-- Case analysis of `assignLane`: either the event is placed into the
first qualifying lane `i` (every earlier lane still ends after the
event's start) or, when no lane qualifies, a new lane is appended. -/
theorem assignLane_cases (lanes : List Int) (x : Item) :
    (∃ i, i < lanes.length ∧
        assignLane lanes x = (lanes.set i x.e, i) ∧
        lanes.getD i 0 ≤ x.s ∧
        ∀ i', i' < i → x.s < lanes.getD i' 0)
    ∨ (assignLane lanes x = (lanes ++ [x.e], lanes.length) ∧
        ∀ i', i' < lanes.length → x.s < lanes.getD i' 0) := by
  induction lanes with
  | nil =>
    right
    refine ⟨rfl, ?_⟩
    intro i' h
    simp at h
  | cons l ls ih =>
    by_cases h : l ≤ x.s
    · left
      refine ⟨0, by simp, by simp [assignLane, h], by simpa using h, ?_⟩
      intro i' h'
      omega
    · rcases ih with ⟨i, hi, heq, hle, hlt⟩ | ⟨heq, hlt⟩
      · left
        refine ⟨i + 1, by simpa using Nat.succ_lt_succ hi, ?_, by simpa using hle, ?_⟩
        · simp only [assignLane, if_neg h, heq]
          rfl
        · intro i' h'
          cases i' with
          | zero => simpa using lt_of_not_le h
          | succ j => simpa using hlt j (by omega)
      · right
        refine ⟨?_, ?_⟩
        · simp only [assignLane, if_neg h, heq]
          simp
        · intro i' h'
          cases i' with
          | zero => simpa using lt_of_not_le h
          | succ j => simpa using hlt j (by simpa using h')

/-- Pigeonhole step: if every lane index below `n` has a layout entry on
that lane satisfying `P`, then at least `n` entries satisfy `P`. -/
theorem le_countP_of_lane_witness (layout : List (Item × Nat)) (P : Item × Nat → Bool)
    (n : Nat) (hw : ∀ j, j < n → ∃ q, q ∈ layout ∧ q.2 = j ∧ P q = true) :
    n ≤ layout.countP P := by
  classical
  have hmaps : ∀ j ∈ Finset.range n,
      (fun j' => if h : j' < n then Classical.choose (hw j' h) else default)
        j ∈ (layout.filter P).toFinset := by
    intro j hj
    have hj' : j < n := Finset.mem_range.mp hj
    have hspec := Classical.choose_spec (hw j hj')
    simp only [dif_pos hj', List.mem_toFinset, List.mem_filter]
    exact ⟨hspec.1, hspec.2.2⟩
  have hinj : Set.InjOn
      (fun j' => if h : j' < n then Classical.choose (hw j' h) else default)
      (Finset.range n) := by
    intro a ha b hb hab
    have ha' : a < n := Finset.mem_range.mp ha
    have hb' : b < n := Finset.mem_range.mp hb
    have hsa := Classical.choose_spec (hw a ha')
    have hsb := Classical.choose_spec (hw b hb')
    simp only [dif_pos ha', dif_pos hb'] at hab
    have : (Classical.choose (hw a ha')).2 = (Classical.choose (hw b hb')).2 := by
      rw [hab]
    rw [hsa.2.1, hsb.2.1] at this
    exact this
  have hcard := Finset.card_le_card_of_injOn _ hmaps hinj
  rw [Finset.card_range] at hcard
  calc n ≤ (layout.filter P).toFinset.card := hcard
    _ ≤ (layout.filter P).length := List.toFinset_card_le _
    _ = layout.countP P := (List.countP_eq_length_filter _ _).symm

/-- A duplicate-free list of lane indices all below `k` has at most `k`
elements. -/
theorem nodup_lt_length_le (M : List Nat) (k : Nat) (hn : M.Nodup)
    (hk : ∀ a ∈ M, a < k) : M.length ≤ k := by
  have hsub : M.toFinset ⊆ Finset.range k := by
    intro a ha
    exact Finset.mem_range.mpr (hk a (List.mem_toFinset.mp ha))
  calc M.length = M.toFinset.card := (List.toFinset_card_of_nodup hn).symm
    _ ≤ (Finset.range k).card := Finset.card_le_card hsub
    _ = k := Finset.card_range k

/-- One step of the placement loop preserves the invariant, provided
every already-processed item starts no later than the incoming one
(which the sort guarantees). -/
theorem packInv_step (done : List Item) (lanes : List Int) (layout : List (Item × Nat))
    (x : Item) (hinv : PackInv done lanes layout)
    (hdone : ∀ a ∈ done, a.s ≤ x.s) :
    PackInv (done ++ [x]) (assignLane lanes x).1
      (layout ++ [(x, (assignLane lanes x).2)]) := by
  rcases assignLane_cases lanes x with ⟨i, hi, heq, hle, _⟩ | ⟨heq, _⟩
  · -- the event is placed into existing lane i
    have key : ∀ q ∈ layout, q.2 = i → q.1.e ≤ x.s := by
      intro q hq hqi
      rcases hinv.end_bound q hq with hb | ⟨r, hr, hri, hqr⟩
      · calc q.1.e ≤ lanes.getD q.2 0 := hb
          _ = lanes.getD i 0 := by rw [hqi]
          _ ≤ x.s := hle
      · have hrdone : r.1 ∈ done := by
          rw [← hinv.map_fst]
          exact List.mem_map_of_mem Prod.fst hr
        exact le_trans hqr (hdone r.1 hrdone)
    rw [heq]
    refine ⟨?_, ?_, ?_, ?_, ?_⟩
    · simp [hinv.map_fst]
    · intro q hq
      rcases List.mem_append.mp hq with hq' | hq'
      · simpa [List.length_set] using hinv.lane_lt q hq'
      · have : q = (x, i) := by simpa using hq'
        subst this
        simpa [List.length_set] using hi
    · refine List.pairwise_append.mpr ⟨hinv.sep, by simp, ?_⟩
      intro p hp q hq
      have : q = (x, i) := by simpa using hq
      subst this
      intro hpi
      exact key p hp hpi
    · intro q hq
      rcases List.mem_append.mp hq with hq' | hq'
      · by_cases hqi : q.2 = i
        · exact Or.inr ⟨(x, i), List.mem_append_right _ (by simp), hqi.symm, key q hq' hqi⟩
        · rcases hinv.end_bound q hq' with hb | ⟨r, hr, hri, hqr⟩
          · left
            rwa [getD_set_ne lanes i q.2 x.e fun h => hqi h.symm]
          · exact Or.inr ⟨r, List.mem_append_left _ hr, hri, hqr⟩
      · have : q = (x, i) := by simpa using hq'
        subst this
        left
        rw [getD_set_self lanes i x.e hi]
    · intro j hj
      have hj' : j < lanes.length := by simpa [List.length_set] using hj
      by_cases hji : j = i
      · subst hji
        exact ⟨(x, j), List.mem_append_right _ (by simp), rfl,
          (getD_set_self lanes j x.e hj').symm⟩
      · rcases hinv.lane_src j hj' with ⟨q, hq, hqj, hqe⟩
        refine ⟨q, List.mem_append_left _ hq, hqj, ?_⟩
        rwa [getD_set_ne lanes i j x.e fun h => hji h.symm]
  · -- no lane qualifies: a new lane is appended
    rw [heq]
    refine ⟨?_, ?_, ?_, ?_, ?_⟩
    · simp [hinv.map_fst]
    · intro q hq
      rcases List.mem_append.mp hq with hq' | hq'
      · have := hinv.lane_lt q hq'
        simp only [List.length_append, List.length_cons, List.length_nil]
        omega
      · have : q = (x, lanes.length) := by simpa using hq'
        subst this
        simp
    · refine List.pairwise_append.mpr ⟨hinv.sep, by simp, ?_⟩
      intro p hp q hq
      have : q = (x, lanes.length) := by simpa using hq
      subst this
      intro hpl
      exact absurd (hpl ▸ hinv.lane_lt p hp) (lt_irrefl _)
    · intro q hq
      rcases List.mem_append.mp hq with hq' | hq'
      · rcases hinv.end_bound q hq' with hb | ⟨r, hr, hri, hqr⟩
        · left
          rwa [getD_append_lt lanes [x.e] q.2 (hinv.lane_lt q hq')]
        · exact Or.inr ⟨r, List.mem_append_left _ hr, hri, hqr⟩
      · have : q = (x, lanes.length) := by simpa using hq'
        subst this
        left
        rw [getD_append_len lanes x.e]
    · intro j hj
      have hj' : j < lanes.length + 1 := by simpa using hj
      by_cases hji : j = lanes.length
      · subst hji
        exact ⟨(x, lanes.length), List.mem_append_right _ (by simp), rfl,
          (getD_append_len lanes x.e).symm⟩
      · have hjlt : j < lanes.length := by omega
        rcases hinv.lane_src j hjlt with ⟨q, hq, hqj, hqe⟩
        refine ⟨q, List.mem_append_left _ hq, hqj, ?_⟩
        rwa [getD_append_lt lanes [x.e] j hjlt]

/-- Running the placement loop over the remaining (sorted) items
preserves the invariant. -/
theorem packSteps_inv (rest : List Item) :
    ∀ (done : List Item) (lanes : List Int) (layout : List (Item × Nat)),
      ((done ++ rest).Pairwise fun a b => a.s ≤ b.s) →
      PackInv done lanes layout →
      PackInv (done ++ rest) (packSteps lanes layout rest).1 (packSteps lanes layout rest).2 := by
  induction rest with
  | nil =>
    intro done lanes layout _ hinv
    simpa [packSteps] using hinv
  | cons x rest ih =>
    intro done lanes layout hsorted hinv
    have hdone : ∀ a ∈ done, a.s ≤ x.s := by
      intro a ha
      exact (List.pairwise_append.mp hsorted).2.2 a ha x (List.mem_cons_self _ _)
    have hstep := packInv_step done lanes layout x hinv hdone
    have hsorted' : (((done ++ [x]) ++ rest).Pairwise fun a b => a.s ≤ b.s) := by
      simpa [List.append_assoc] using hsorted
    have := ih (done ++ [x]) (assignLane lanes x).1
      (layout ++ [(x, (assignLane lanes x).2)]) hsorted' hstep
    simpa [packSteps, List.append_assoc] using this

/-- The invariant holds for the completed run over a sorted item list. -/
theorem packAll_inv (items : List Item)
    (hsorted : items.Pairwise fun a b => a.s ≤ b.s) :
    PackInv items (packAll items).1 (packAll items).2 := by
  have hbase : PackInv [] [] [] := ⟨rfl, by simp, by simp, by simp, by simp⟩
  have := packSteps_inv items [] [] [] (by simpa using hsorted) hbase
  simpa [packAll] using this

/-- Every instant's depth in a processed prefix is witnessed inside the
layout, so when the loop opens a new lane the already-open lanes plus
the incoming event are all simultaneously active at its start. -/
theorem packSteps_length_le (all : List Item)
    (hsorted : all.Pairwise fun a b => a.s ≤ b.s)
    (hval : ∀ a ∈ all, a.s < a.e) (rest : List Item) :
    ∀ (done : List Item) (lanes : List Int) (layout : List (Item × Nat)),
      done ++ rest = all →
      PackInv done lanes layout →
      lanes.length ≤ overlapDepth all →
      (packSteps lanes layout rest).1.length ≤ overlapDepth all := by
  induction rest with
  | nil =>
    intro done lanes layout _ _ hbound
    simpa [packSteps] using hbound
  | cons x rest ih =>
    intro done lanes layout hsplit hinv hbound
    have hsorted' : ((done ++ x :: rest).Pairwise fun a b => a.s ≤ b.s) := by
      rw [hsplit]; exact hsorted
    have hdone : ∀ a ∈ done, a.s ≤ x.s := by
      intro a ha
      exact (List.pairwise_append.mp hsorted').2.2 a ha x (List.mem_cons_self _ _)
    have hstep := packInv_step done lanes layout x hinv hdone
    have hsplit' : (done ++ [x]) ++ rest = all := by
      rw [List.append_assoc]; simpa using hsplit
    have hxall : x ∈ all := by
      rw [← hsplit]
      exact List.mem_append_right _ (List.mem_cons_self _ _)
    -- the new lane list is still bounded by the overlap depth
    have hbound' : (assignLane lanes x).1.length ≤ overlapDepth all := by
      rcases assignLane_cases lanes x with ⟨i, hi, heq, _, _⟩ | ⟨heq, hall⟩
      · rw [heq]
        simpa [List.length_set] using hbound
      · rw [heq]
        -- every open lane's recorded end comes from an entry active at x.s
        have hwit : ∀ j, j < lanes.length →
            ∃ q, q ∈ layout ∧ q.2 = j ∧ (fun q' => activeAt x.s q'.1) q = true := by
          intro j hj
          rcases hinv.lane_src j hj with ⟨q, hq, hqj, hqe⟩
          refine ⟨q, hq, hqj, ?_⟩
          have hq1 : q.1 ∈ done := by
            rw [← hinv.map_fst]
            exact List.mem_map_of_mem Prod.fst hq
          have h1 : q.1.s ≤ x.s := hdone q.1 hq1
          have h2 : x.s < q.1.e := by
            rw [hqe]
            exact hall j hj
          simp [activeAt, h1, h2]
        have hcount : lanes.length ≤ layout.countP fun q => activeAt x.s q.1 :=
          le_countP_of_lane_witness layout _ lanes.length hwit
        have hcount' : (layout.countP fun q => activeAt x.s q.1)
            = done.countP (activeAt x.s) := by
          rw [← hinv.map_fst, List.countP_map]
          rfl
        have hxact : activeAt x.s x = true := by
          simp [activeAt, hval x hxall]
        have hdepth : lanes.length + 1 ≤ depthAt all x.s := by
          have hsplitc : all.countP (activeAt x.s)
              = done.countP (activeAt x.s) + (x :: rest).countP (activeAt x.s) := by
            rw [← hsplit, List.countP_append]
          have hconsc : (x :: rest).countP (activeAt x.s)
              = rest.countP (activeAt x.s) + 1 := by
            rw [List.countP_cons, hxact]
            simp
          rw [depthAt, hsplitc, hconsc]
          omega
        have hmem : depthAt all x.s ≤ overlapDepth all := by
          apply le_foldr_max
          exact List.mem_map_of_mem (fun y => depthAt all y.s) hxall
        simp only [List.length_append, List.length_cons, List.length_nil]
        omega
    have := ih (done ++ [x]) (assignLane lanes x).1
      (layout ++ [(x, (assignLane lanes x).2)]) hsplit' hstep hbound'
    simpa [packSteps] using this

/-- The number of lanes the loop opens is bounded by the overlap depth,
provided every item has positive duration. -/
theorem packAll_length_le (items : List Item)
    (hsorted : items.Pairwise fun a b => a.s ≤ b.s)
    (hval : ∀ a ∈ items, a.s < a.e) :
    (packAll items).1.length ≤ overlapDepth items := by
  have hbase : PackInv [] [] [] := ⟨rfl, by simp, by simp, by simp, by simp⟩
  have := packSteps_length_le items hsorted hval items [] [] [] (by simp) hbase (by simp)
  simpa [packAll] using this

/-- Lower-bound lemma: for any lane assignment whose per-lane interval
sets are overlap-free and whose lane indices lie below `k`, at most `k`
of the assigned items can be active at any one instant. -/
theorem depth_le_of_valid_layout (L : List (Item × Nat)) (k : Nat) (t : Int)
    (hb : ∀ q ∈ L, q.2 < k)
    (hp : L.Pairwise fun p q => p.2 = q.2 → noOverlapPair p.1 q.1) :
    (L.map Prod.fst).countP (activeAt t) ≤ k := by
  have hpf : ((L.filter fun q => activeAt t q.1).Pairwise fun p q => p.2 ≠ q.2) := by
    have hfil := hp.filter (fun q => activeAt t q.1)
    refine hfil.imp_of_mem ?_
    intro p q hpmem hqmem hrel hpq
    have hpact := (List.mem_filter.mp hpmem).2
    have hqact := (List.mem_filter.mp hqmem).2
    simp only [activeAt, Bool.and_eq_true, decide_eq_true_eq] at hpact hqact
    rcases hrel hpq with h1 | h1 <;> [skip; skip] <;> unfold noOverlapPair at * <;> omega
  have hnodup : ((L.filter fun q => activeAt t q.1).map Prod.snd).Nodup :=
    List.pairwise_map.mpr hpf
  have hklt : ∀ a ∈ (L.filter fun q => activeAt t q.1).map Prod.snd, a < k := by
    intro a ha
    rcases List.mem_map.mp ha with ⟨q, hq, rfl⟩
    exact hb q (List.mem_filter.mp hq).1
  have hlen := nodup_lt_length_le _ k hnodup hklt
  rw [List.length_map] at hlen
  calc (L.map Prod.fst).countP (activeAt t)
      = L.countP fun q => activeAt t q.1 := by rw [List.countP_map]; rfl
    _ = (L.filter fun q => activeAt t q.1).length := List.countP_eq_length_filter _ _
    _ ≤ k := hlen

/-- The overlap depth only depends on the multiset of items. -/
theorem overlapDepth_perm (l₁ l₂ : List Item) (h : l₁.Perm l₂) :
    overlapDepth l₁ = overlapDepth l₂ := by
  have hdep : ∀ t, depthAt l₁ t = depthAt l₂ t := fun t => h.countP_eq _
  unfold overlapDepth
  have hmap : (l₁.map fun x => depthAt l₁ x.s) = l₁.map fun x => depthAt l₂ x.s := by
    apply List.map_congr_left
    intro x _
    exact hdep x.s
  rw [hmap]
  exact foldr_max_perm _ _ (h.map _)

/-- For positive-duration items the number of opened lanes equals the
overlap depth of the filtered item set. -/
theorem laneCount_eq_overlapDepth_aux (events : List RawEvent)
    (hval : ∀ it ∈ parseItems events, it.s < it.e) :
    laneCountOf events = overlapDepth (parseItems events) := by
  have hsor := sortByStart_sorted (parseItems events)
  have hperm := sortByStart_perm (parseItems events)
  have hval' : ∀ a ∈ sortByStart (parseItems events), a.s < a.e :=
    fun a ha => hval a (hperm.mem_iff.mp ha)
  have hinv := packAll_inv (sortByStart (parseItems events)) hsor
  apply le_antisymm
  · calc laneCountOf events
        = (packAll (sortByStart (parseItems events))).1.length := rfl
      _ ≤ overlapDepth (sortByStart (parseItems events)) :=
          packAll_length_le _ hsor hval'
      _ = overlapDepth (parseItems events) := overlapDepth_perm _ _ hperm
  · have hsep : ((packAll (sortByStart (parseItems events))).2.Pairwise
        fun p q => p.2 = q.2 → noOverlapPair p.1 q.1) :=
      hinv.sep.imp fun h hpq => Or.inl (h hpq)
    apply foldr_max_le
    intro a ha
    rcases List.mem_map.mp ha with ⟨x, _, rfl⟩
    have hlay := depth_le_of_valid_layout
      (packAll (sortByStart (parseItems events))).2
      (packAll (sortByStart (parseItems events))).1.length
      x.s hinv.lane_lt hsep
    rw [hinv.map_fst] at hlay
    calc depthAt (parseItems events) x.s
        = (sortByStart (parseItems events)).countP (activeAt x.s) :=
          (hperm.countP_eq _).symm
      _ ≤ laneCountOf events := hlay

/-- The opened lane count is minimal among all overlap-free lane
assignments of the same item multiset. -/
theorem laneCount_min_aux (events : List RawEvent)
    (hval : ∀ it ∈ parseItems events, it.s < it.e)
    (k : Nat) (L : List (Item × Nat))
    (hLperm : (L.map Prod.fst).Perm (parseItems events))
    (hb : ∀ q ∈ L, q.2 < k)
    (hp : L.Pairwise fun p q => p.2 = q.2 → noOverlapPair p.1 q.1) :
    laneCountOf events ≤ k := by
  rw [laneCount_eq_overlapDepth_aux events hval]
  apply foldr_max_le
  intro a ha
  rcases List.mem_map.mp ha with ⟨x, _, rfl⟩
  calc depthAt (parseItems events) x.s
      = (L.map Prod.fst).countP (activeAt x.s) := (hLperm.countP_eq _).symm
    _ ≤ k := depth_le_of_valid_layout L k x.s hb hp

/-- The packer's own filtering keeps exactly the events carrying both
parsed timestamps, in input order. -/
theorem parseItems_map_ev (events : List RawEvent) :
    (parseItems events).map Item.ev
      = events.filter fun ev => ev.startTime.isSome && ev.endTime.isSome := by
  induction events with
  | nil => rfl
  | cons ev rest ih =>
    obtain ⟨i, st, en⟩ := ev
    cases st <;> cases en <;> simp [parseItems, List.filter_cons, ih]

/-! Coordinator lemmas. -/

/-- While a re-plan is running every trigger takes the first early
return and leaves the state untouched. -/
theorem checkAndReplan_running (st : CoordState) (inp : TriggerInput)
    (h : st.isReplanning = true) :
    checkAndReplan st inp = (st, .alreadyRunning) := by
  simp [checkAndReplan, h]

/-- A call either accepts, mutating the state to Running with the
dispatch instant recorded, or rejects and leaves the state untouched. -/
theorem checkAndReplan_cases (st : CoordState) (inp : TriggerInput) :
    ((checkAndReplan st inp).2 = .accepted
      ∧ (checkAndReplan st inp).1
          = { isReplanning := true, lastReplanTime := some inp.now })
    ∨ ((checkAndReplan st inp).2 ≠ .accepted ∧ (checkAndReplan st inp).1 = st) := by
  unfold checkAndReplan
  split_ifs <;> simp

/-- No trigger is accepted from a Running state. -/
theorem runTriggers_count_running (inps : List TriggerInput) :
    ∀ st : CoordState, st.isReplanning = true →
      ((runTriggers st inps).2.count .accepted) = 0 := by
  induction inps with
  | nil =>
    intro st _
    simp [runTriggers]
  | cons inp rest ih =>
    intro st h
    have heq := checkAndReplan_running st inp h
    simp [runTriggers, heq, List.count_cons, ih st h]

/-- From an Idle state, any burst of triggers with no completion in
between accepts at most one of them. -/
theorem runTriggers_count_le_one (inps : List TriggerInput) :
    ∀ st : CoordState, st.isReplanning = false →
      ((runTriggers st inps).2.count .accepted) ≤ 1 := by
  induction inps with
  | nil =>
    intro st _
    simp [runTriggers]
  | cons inp rest ih =>
    intro st h
    rcases checkAndReplan_cases st inp with ⟨hacc, hst⟩ | ⟨hnacc, hst⟩
    · have hrest := runTriggers_count_running rest (checkAndReplan st inp).1
        (by rw [hst])
      simp [runTriggers, List.count_cons, hacc, hrest]
    · have hrest := ih st h
      rw [← hst] at hrest
      simp [runTriggers, List.count_cons, hnacc, hrest]

/-- The state an accepted call leaves behind: Running, with the dispatch
instant recorded in `_last_replan_time`. -/
theorem checkAndReplan_accepted_state (st st' : CoordState) (inp : TriggerInput)
    (h : checkAndReplan st inp = (st', .accepted)) :
    st' = { isReplanning := true, lastReplanTime := some inp.now } := by
  rcases checkAndReplan_cases st inp with ⟨hacc, hst⟩ | ⟨hnacc, hst⟩
  · rw [h] at hst
    exact hst
  · rw [h] at hnacc
    simp at hnacc

/-! Claim theorems. -/

/-- C1: for every day's event sequence whose filtered items all have
positive duration, the number of lanes `_compute_lanes` opens equals the
overlap depth computed by the independent sweep-line reference, and no
overlap-free lane assignment of the same items can use fewer lanes. -/
theorem lanes_eq_overlap_depth_and_minimal (events : List RawEvent)
    (hval : ∀ it ∈ parseItems events, it.s < it.e) :
    laneCountOf events = overlapDepth (parseItems events)
    ∧ ∀ (k : Nat) (L : List (Item × Nat)),
        (L.map Prod.fst).Perm (parseItems events) →
        (∀ q ∈ L, q.2 < k) →
        (L.Pairwise fun p q => p.2 = q.2 → noOverlapPair p.1 q.1) →
        laneCountOf events ≤ k :=
  ⟨laneCount_eq_overlapDepth_aux events hval,
   fun k L hLperm hb hp => laneCount_min_aux events hval k L hLperm hb hp⟩

/-- Witness for C1 at the spec's concrete scenario A, B, C: the lane
count and the sweep-line depth are both 2. -/
theorem lanes_eq_overlap_depth_and_minimal_witness :
    (∀ it ∈ parseItems abcEvents, it.s < it.e)
    ∧ laneCountOf abcEvents = overlapDepth (parseItems abcEvents)
    ∧ laneCountOf abcEvents = 2 :=
  ⟨by decide, (lanes_eq_overlap_depth_and_minimal abcEvents (by decide)).1, by decide⟩

/-- C2: whenever the coordinator is Running, a trigger is rejected with
AlreadyRunning and the state is untouched, and any back-to-back burst of
triggers starting from Idle, with no completion in between, accepts at
most one. -/
theorem replan_mutual_exclusion :
    (∀ (st : CoordState) (inp : TriggerInput), st.isReplanning = true →
        checkAndReplan st inp = (st, .alreadyRunning))
    ∧ ∀ (st : CoordState) (inps : List TriggerInput), st.isReplanning = false →
        ((runTriggers st inps).2.count .accepted) ≤ 1 :=
  ⟨fun st inp h => checkAndReplan_running st inp h,
   fun st inps h => runTriggers_count_le_one inps st h⟩

/-- Witness for C2: ten identical qualifying triggers fired back-to-back
from Idle; the first is accepted, the other nine are rejected with
AlreadyRunning. -/
theorem replan_mutual_exclusion_witness :
    initialCoordState.isReplanning = false
    ∧ ((runTriggers initialCoordState (List.replicate 10 (qualifyingInput 0))).2.count
        ReplanOutcome.accepted) ≤ 1
    ∧ (runTriggers initialCoordState (List.replicate 10 (qualifyingInput 0))).2
        = .accepted :: List.replicate 9 .alreadyRunning :=
  ⟨rfl,
   (replan_mutual_exclusion).2 initialCoordState (List.replicate 10 (qualifyingInput 0)) rfl,
   by decide⟩

/-- C3: entries of the layout sharing a lane never overlap
(`a.end <= b.start or b.end <= a.start`). -/
theorem same_lane_no_overlap (events : List RawEvent) :
    (layoutOf events).Pairwise fun p q => p.2 = q.2 → noOverlapPair p.1 q.1 :=
  (packAll_inv (sortByStart (parseItems events))
    (sortByStart_sorted (parseItems events))).sep.imp fun h hpq => Or.inl (h hpq)

/-- C4 counterexample: a re-plan dispatched at instant 0 whose worker
completes (here: raises) at instant 10 leaves `_last_replan_time` at the
dispatch instant 0, not at the completion instant 10 — the code never
records a timestamp at completion. -/
theorem completion_timestamp_counterexample :
    (checkAndReplan initialCoordState (qualifyingInput 0)).2 = .accepted
    ∧ (onWorkerComplete (checkAndReplan initialCoordState (qualifyingInput 0)).1 10
        (.raised "boom")).isReplanning = false
    ∧ (onWorkerComplete (checkAndReplan initialCoordState (qualifyingInput 0)).1 10
        (.raised "boom")).lastReplanTime = some 0
    ∧ some (0 : Int) ≠ some (10 : Int) :=
  ⟨by decide, by decide, by decide, by decide⟩

/-- C4 amended: on worker completion — success, no-op, failure status or
raised exception — the coordinator transitions back to Idle and leaves
`_last_replan_time` untouched; that timestamp is recorded at dispatch
time, when the trigger is accepted, so a failed attempt still starts the
cooldown window (measured from dispatch). -/
theorem completion_idle_dispatch_timestamp :
    (∀ (st : CoordState) (now : Int) (r : WorkerResult),
        (onWorkerComplete st now r).isReplanning = false
        ∧ (onWorkerComplete st now r).lastReplanTime = st.lastReplanTime)
    ∧ (∀ (st st' : CoordState) (inp : TriggerInput),
        checkAndReplan st inp = (st', .accepted) →
        st'.isReplanning = true ∧ st'.lastReplanTime = some inp.now)
    ∧ (∀ (st st' : CoordState) (inp : TriggerInput) (now₂ : Int) (r : WorkerResult)
        (inp₂ : TriggerInput),
        checkAndReplan st inp = (st', .accepted) →
        inp₂.now - inp.now < replanCooldown →
        (checkAndReplan (onWorkerComplete st' now₂ r) inp₂).2 = .cooldown) := by
  refine ⟨fun st now r => ⟨rfl, rfl⟩, ?_, ?_⟩
  · intro st st' inp h
    rw [checkAndReplan_accepted_state st st' inp h]
    exact ⟨rfl, rfl⟩
  · intro st st' inp now₂ r inp₂ h hcool
    rw [checkAndReplan_accepted_state st st' inp h]
    have hc : inCooldown { isReplanning := false, lastReplanTime := some inp.now }
        inp₂.now = true := by
      simp [inCooldown, hcool]
    simp [onWorkerComplete, checkAndReplan, hc]

/-- Witness for C4 amended: dispatch at 0, worker raises and completes
at 3, a new qualifying trigger at 1 second is rejected with Cooldown. -/
theorem completion_idle_dispatch_timestamp_witness :
    checkAndReplan initialCoordState (qualifyingInput 0)
      = ({ isReplanning := true, lastReplanTime := some 0 }, .accepted)
    ∧ ((qualifyingInput 1).now - (qualifyingInput 0).now < replanCooldown)
    ∧ (checkAndReplan
        (onWorkerComplete { isReplanning := true, lastReplanTime := some 0 } 3
          (.raised "optimizer unavailable"))
        (qualifyingInput 1)).2 = .cooldown :=
  ⟨by decide, by decide,
   completion_idle_dispatch_timestamp.2.2 initialCoordState
     { isReplanning := true, lastReplanTime := some 0 } (qualifyingInput 0) 3
     (.raised "optimizer unavailable") (qualifyingInput 1) (by decide) (by decide)⟩

/-- C5: inside the cooldown window every trigger is rejected with
Cooldown, whatever its severity; two qualifying requests 1 second apart
(with the worker completing in between) see the second rejected with
Cooldown, while 6 seconds apart both are accepted. -/
theorem cooldown_unconditional :
    (∀ (st : CoordState) (inp : TriggerInput) (t : Int),
        st.isReplanning = false → st.lastReplanTime = some t →
        inp.now - t < replanCooldown →
        checkAndReplan st inp = (st, .cooldown))
    ∧ (checkAndReplan initialCoordState (qualifyingInput 0)).2 = .accepted
    ∧ (checkAndReplan
        (onWorkerComplete (checkAndReplan initialCoordState (qualifyingInput 0)).1 0
          (.success 1 0))
        (qualifyingInput 1)).2 = .cooldown
    ∧ (checkAndReplan
        (onWorkerComplete (checkAndReplan initialCoordState (qualifyingInput 0)).1 0
          (.success 1 0))
        (qualifyingInput 6)).2 = .accepted := by
  refine ⟨?_, by decide, by decide, by decide⟩
  intro st inp t h1 h2 h3
  have hc : inCooldown st inp.now = true := by
    simp [inCooldown, h2, h3]
  simp [checkAndReplan, h1, hc]

/-- Witness for C5: a critical trigger 1 second after the recorded
timestamp is rejected with Cooldown. -/
theorem cooldown_unconditional_witness :
    checkAndReplan { isReplanning := false, lastReplanTime := some (0 : Int) }
        (qualifyingInput 1)
      = ({ isReplanning := false, lastReplanTime := some 0 }, .cooldown) :=
  cooldown_unconditional.1 { isReplanning := false, lastReplanTime := some (0 : Int) }
    (qualifyingInput 1) 0 rfl rfl (by decide)

/-- C6: with zero "[Task]"-tagged events and zero scheduled tasks, a
trigger reaching the gate is rejected with NothingToReplan for every
possible warning list — the capacity severity is never consulted. -/
theorem nothing_to_replan_gate :
    ∀ (st : CoordState) (now : Int) (events : List CalEvent)
      (tasks : List SchedTask) (warnings : List Warning),
      st.isReplanning = false →
      inCooldown st now = false →
      hasTaskEvents events = false →
      hasScheduledTasks tasks = false →
      checkAndReplan st { now := now, events := events, tasks := tasks, warnings := warnings }
        = (st, .nothingToReplan) := by
  intro st now events tasks warnings h1 h2 h3 h4
  simp [checkAndReplan, h1, h2, h3, h4]

/-- Witness for C6: a CapacityCritical trigger with no tagged events and
no tracked tasks returns NothingToReplan. -/
theorem nothing_to_replan_gate_witness :
    checkAndReplan initialCoordState
        { now := 0, events := [], tasks := [], warnings := [{ severity := "critical" }] }
      = (initialCoordState, .nothingToReplan) :=
  nothing_to_replan_gate initialCoordState 0 [] [] [{ severity := "critical" }]
    rfl rfl rfl rfl

/-- C7: the only refresh a completion callback triggers carries
`skip_replan=True`, and a refresh with `skip_replan=True` never reaches
`_check_and_replan` — the refresh → replan → refresh cycle is broken. -/
theorem replan_refresh_cycle_broken :
    (∀ (r : WorkerResult) (b : Bool), completionTriggersRefresh r = some b → b = true)
    ∧ ∀ replanOnEventChange isReplanning : Bool,
        refreshRunsReplanCheck replanOnEventChange true isReplanning = false := by
  constructor
  · intro r b h
    cases r <;> simp [completionTriggersRefresh] at h
    exact h
  · intro replanOnEventChange isReplanning
    simp [refreshRunsReplanCheck]

/-- Witness for C7: the success callback's refresh is marked
`skip_replan=True`. -/
theorem replan_refresh_cycle_broken_witness :
    completionTriggersRefresh (.success 2 1) = some true ∧ true = true :=
  ⟨rfl, replan_refresh_cycle_broken.1 (.success 2 1) true rfl⟩

/-- C8: an event whose end equals the next event's start shares its lane
(back-to-back and zero-duration inputs never block a lane and never
crash the packer), and the concrete scenario A(540-600), B(570-630),
C(600-660) packs to A→0, B→1, C→0 with lane count 2. -/
theorem back_to_back_non_overlapping :
    (∀ (ra rb : RawEvent) (sa ea sb eb : Int),
        ra.startTime = some sa → ra.endTime = some ea →
        rb.startTime = some sb → rb.endTime = some eb →
        sa ≤ sb → ea = sb →
        computeLanes [ra, rb] = [(ra, 0, 1), (rb, 0, 1)])
    ∧ computeLanes abcEvents = [(evA, 0, 2), (evB, 1, 2), (evC, 0, 2)] := by
  constructor
  · intro ra rb sa ea sb eb hra hrae hrb hrbe hs he
    have h1 : ¬ sb < sa := not_lt.mpr hs
    have h2 : ea ≤ sb := le_of_eq he
    simp [computeLanes, layoutOf, laneCountOf, parseItems, hra, hrae, hrb, hrbe,
      sortByStart, insertSorted, h1, packAll, packSteps, assignLane, h2]
  · decide

/-- Witness for C8's general part: an event ending at 600 does not block
the lane for an event starting at 600. -/
theorem back_to_back_non_overlapping_witness :
    computeLanes [{ eid := 7, startTime := some 540, endTime := some 600 },
        { eid := 8, startTime := some 600, endTime := some 660 }]
      = [({ eid := 7, startTime := some 540, endTime := some 600 }, 0, 1),
         ({ eid := 8, startTime := some 600, endTime := some 660 }, 0, 1)] :=
  back_to_back_non_overlapping.1 _ _ 540 600 600 660 rfl rfl rfl rfl (by decide) rfl

/-- C9: the sort is by start ascending, stable (elements with any given
start keep their original relative order), and idempotent, so packing
the same (already-sorted) input again yields identical lane
assignments. -/
theorem packing_deterministic_stable (events : List RawEvent) :
    ((sortByStart (parseItems events)).Pairwise fun a b => a.s ≤ b.s)
    ∧ (∀ k : Int, (sortByStart (parseItems events)).filter (fun z => z.s == k)
        = (parseItems events).filter fun z => z.s == k)
    ∧ sortByStart (sortByStart (parseItems events)) = sortByStart (parseItems events)
    ∧ packAll (sortByStart (sortByStart (parseItems events)))
        = packAll (sortByStart (parseItems events)) :=
  ⟨sortByStart_sorted (parseItems events),
   fun k => sortByStart_filter_key (parseItems events) k,
   sortByStart_idem (parseItems events),
   by rw [sortByStart_idem]⟩

/-- C10: the packer itself filters out events without both parseable
timestamps (keeping input order), every remaining event appears exactly
once in the output, every lane index is below the day's lane count, and
every output tuple carries that same lane count. -/
theorem packer_total_complete (events : List RawEvent) :
    ((parseItems events).map Item.ev
        = events.filter fun ev => ev.startTime.isSome && ev.endTime.isSome)
    ∧ ((computeLanes events).map Prod.fst).Perm ((parseItems events).map Item.ev)
    ∧ ∀ t ∈ computeLanes events, t.2.1 < t.2.2 ∧ t.2.2 = laneCountOf events := by
  have hinv := packAll_inv (sortByStart (parseItems events))
    (sortByStart_sorted (parseItems events))
  refine ⟨parseItems_map_ev events, ?_, ?_⟩
  · have hmap : (computeLanes events).map Prod.fst
        = (sortByStart (parseItems events)).map Item.ev := by
      calc (computeLanes events).map Prod.fst
          = (layoutOf events).map fun q => q.1.ev := by
            simp [computeLanes, List.map_map, Function.comp]
        _ = ((layoutOf events).map Prod.fst).map Item.ev := by
            rw [List.map_map]
            rfl
        _ = (sortByStart (parseItems events)).map Item.ev := by
            rw [show (layoutOf events).map Prod.fst = sortByStart (parseItems events)
              from hinv.map_fst]
    rw [hmap]
    exact (sortByStart_perm (parseItems events)).map Item.ev
  · intro t ht
    rcases List.mem_map.mp ht with ⟨q, hq, rfl⟩
    exact ⟨hinv.lane_lt q hq, rfl⟩

/-- Witness for C10 at the concrete scenario: event A is in the output
with lane 0 below lane count 2. -/
theorem packer_total_complete_witness :
    (evA, 0, 2) ∈ computeLanes abcEvents ∧ (0 < 2 ∧ 2 = laneCountOf abcEvents) :=
  ⟨by decide, (packer_total_complete abcEvents).2.2 (evA, 0, 2) (by decide)⟩
